import Mathlib

/-!
Verification of the identity-resolution core of the research-index ingestion
backend, together with the affiliation linker and the notebook's
question-answering helper.

The repository's Python sources for the resolver and linker are not shipped
with the package tree here; following the specification document, the
resolver, the affiliation linker and the surrounding data model are modelled
from the spec (each such definition's doc comment starts with
`Modelled from the spec:`).  The `answer_questions` function is translated
from `notebooks/summary.ipynb`.
-/

namespace ResearchIndex

/-- Modelled from the spec: a Person node in the graph store — unique
identifier, a stored name and an optional ORCID (canonical key when
present). -/
structure Person where
  pid : Nat
  name : String
  orcid : Option String
deriving DecidableEq, Repr

/-- Modelled from the spec: a Mention, a raw (name-string, optional-ORCID)
pair extracted from one metadata record. -/
structure Mention where
  name : String
  orcid : Option String
deriving DecidableEq, Repr

/-- Modelled from the spec: the two environment-supplied similarity
thresholds (`ORCID_NAME_SIMILARITY_THRESHOLD`, `NAME_SIMILARITY_THRESHOLD`). -/
structure Config where
  orcidNameSimilarityThreshold : ℚ
  nameSimilarityThreshold : ℚ
deriving DecidableEq, Repr

/-- Modelled from the spec: map an accented Latin letter to its unaccented
lowercase base letter (diacritic-insensitive comparison); other characters
are returned unchanged. -/
def stripDiacritic (c : Char) : Char :=
  match c with
  | 'á' | 'à' | 'â' | 'ä' | 'ã' | 'å' | 'Á' | 'À' | 'Â' | 'Ä' | 'Ã' | 'Å' => 'a'
  | 'é' | 'è' | 'ê' | 'ë' | 'É' | 'È' | 'Ê' | 'Ë' => 'e'
  | 'í' | 'ì' | 'î' | 'ï' | 'Í' | 'Ì' | 'Î' | 'Ï' => 'i'
  | 'ó' | 'ò' | 'ô' | 'ö' | 'õ' | 'ø' | 'Ó' | 'Ò' | 'Ô' | 'Ö' | 'Õ' | 'Ø' => 'o'
  | 'ú' | 'ù' | 'û' | 'ü' | 'Ú' | 'Ù' | 'Û' | 'Ü' => 'u'
  | 'ý' | 'ÿ' | 'Ý' => 'y'
  | 'ñ' | 'Ñ' => 'n'
  | 'ç' | 'Ç' => 'c'
  | _ => c

/-- Modelled from the spec: character normalization — strip diacritics and
lowercase (case-insensitive comparison). -/
def normalizeChar (c : Char) : Char :=
  (stripDiacritic c).toLower

/-- Split a character list into maximal whitespace-free words; `acc` holds
the (reversed) current word. -/
def wordsAux : List Char → List Char → List (List Char)
  | [], acc => if acc = [] then [] else [acc.reverse]
  | c :: cs, acc =>
    if c.isWhitespace then
      if acc = [] then wordsAux cs [] else acc.reverse :: wordsAux cs []
    else
      wordsAux cs (c :: acc)

/-- Modelled from the spec: normalized name tokens — case-insensitive,
diacritic-insensitive, whitespace-collapsed. -/
def nameTokens (s : String) : List String :=
  (wordsAux (s.data.map normalizeChar) []).map (fun l => String.mk l)

/-- Modelled from the spec: the set of normalized tokens of a name
(token-order-invariant scoring uses token sets). -/
def tokenSet (s : String) : Finset String :=
  (nameTokens s).toFinset

/-- Modelled from the spec: normalized-name similarity score — token-set
overlap (Jaccard index) between the two names' normalized token sets. -/
def similarity (a b : String) : ℚ :=
  let A := tokenSet a
  let B := tokenSet b
  if (A ∪ B).card = 0 then 0
  else ((A ∩ B).card : ℚ) / ((A ∪ B).card : ℚ)

/-- Modelled from the spec: a name string is usable when it contains at
least one non-whitespace token; otherwise the mention is malformed. -/
def validName (s : String) : Bool :=
  !(nameTokens s).isEmpty

theorem similarity_comm (a b : String) : similarity a b = similarity b a := by
  simp only [similarity]
  rw [Finset.union_comm, Finset.inter_comm]

/-- Modelled from the spec: the graph store as seen by the resolver — the
current Person nodes plus a counter supplying fresh Person identifiers. -/
structure Store where
  persons : List Person
  nextId : Nat
deriving DecidableEq, Repr

/-- The empty store at the start of the first ingestion run. -/
def emptyStore : Store := ⟨[], 0⟩

/-- Modelled from the spec: the resolver's match-or-create decision for one
mention; `skipped` is the warning-level signal for a malformed mention. -/
inductive Outcome where
  | matched (p : Person)
  | created (p : Person)
  | skipped
deriving DecidableEq, Repr

/-- The Person identifier yielded by a resolution outcome, if any. -/
def Outcome.pid? : Outcome → Option Nat
  | .matched p => some p.pid
  | .created p => some p.pid
  | .skipped => none

/-- Whether the outcome created a new Person. -/
def Outcome.isCreated : Outcome → Bool
  | .created _ => true
  | _ => false

/-- Modelled from the spec: the best-scoring candidate together with its
similarity score against the mention's name; ties among equally-scoring
candidates resolve to the first encountered in stable input order. -/
def bestCandidate (m : Mention) : List Person → Option (Person × ℚ)
  | [] => none
  | c :: cs =>
    match bestCandidate m cs with
    | none => some (c, similarity m.name c.name)
    | some (d, s) =>
      if similarity m.name c.name < s then some (d, s)
      else some (c, similarity m.name c.name)

/-- Modelled from the spec: search the candidates for an exact ORCID match
(first in stable order). -/
def findOrcid (persons : List Person) (o : String) : Option Person :=
  persons.find? (fun p => decide (p.orcid = some o))

/-- Modelled from the spec: the candidates that carry no ORCID — the only
ones an ORCID-bearing mention may merge into by name (an ORCID claiming a
different stored ORCID never merges, and ORCID mismatch overrides name
equality). -/
def noOrcidPool (persons : List Person) : List Person :=
  persons.filter (fun p => decide (p.orcid = none))

/-- Modelled from the spec: the new Person created on first unmatched
mention, with a fresh identifier. -/
def newPerson (S : Store) (m : Mention) : Person :=
  ⟨S.nextId, m.name, m.orcid⟩

/-- Modelled from the spec: create a new Person for the mention and append
it to the store. -/
def createNew (S : Store) (m : Mention) : Outcome × Store :=
  (.created (newPerson S m), ⟨S.persons ++ [newPerson S m], S.nextId + 1⟩)

/-- Replace the store entry (by Person identifier) with its updated
version. -/
def updatePerson (S : Store) (p' : Person) : Store :=
  ⟨S.persons.map (fun q => if q.pid = p'.pid then p' else q), S.nextId⟩

/-- Modelled from the spec: `resolve(mention, candidate_persons)` — the
Identity Resolver plus the caller's store update.  A malformed (empty) name
is skipped with a warning-level signal; an exact ORCID match is
authoritative (backfilling a previously blank name); an ORCID-bearing
mention otherwise merges into the best ORCID-free candidate only when its
score strictly exceeds the ORCID-context threshold; a mention without an
ORCID merges into the best candidate only when its score strictly exceeds
the name-only threshold; in every other case a new Person is created. -/
def resolve (cfg : Config) (S : Store) (m : Mention) : Outcome × Store :=
  if validName m.name then
    match m.orcid with
    | some o =>
      match findOrcid S.persons o with
      | some p =>
        let p' := if p.name = "" then { p with name := m.name } else p
        (.matched p', updatePerson S p')
      | none =>
        match bestCandidate m (noOrcidPool S.persons) with
        | some (q, s) =>
          if cfg.orcidNameSimilarityThreshold < s then
            let q' := { q with orcid := some o }
            (.matched q', updatePerson S q')
          else createNew S m
        | none => createNew S m
    | none =>
      match bestCandidate m S.persons with
      | some (q, s) =>
        if cfg.nameSimilarityThreshold < s then (.matched q, S)
        else createNew S m
      | none => createNew S m
  else (.skipped, S)

/-- Modelled from the spec: resolve a sequence of mentions in order, each
against the store produced by the previous ones (one ingestion pipeline,
possibly spanning several runs). -/
def runMentions (cfg : Config) (S : Store) : List Mention → Store
  | [] => S
  | m :: ms => runMentions cfg (resolve cfg S m).2 ms

/-- Modelled from the spec: the at-most-one-Person-per-ORCID invariant of a
consistent store. -/
def uniqueOrcid (S : Store) : Prop :=
  ∀ p ∈ S.persons, ∀ q ∈ S.persons,
    p.orcid.isSome = true → p.orcid = q.orcid → p = q

instance (S : Store) : Decidable (uniqueOrcid S) := by
  unfold uniqueOrcid; infer_instance

/-- Modelled from the spec: an Institution — a project partner with
identifier, name, and optional external registry IDs; seeded from reference
data, read-only during ingestion. -/
structure Institution where
  id : String
  name : String
  dbpedia : Option String
  ror : Option String
  openalex : Option String
deriving DecidableEq, Repr

/-- Modelled from the spec: an Affiliation Link relating a Person to a
project-partner institution. -/
structure AffiliationLink where
  personId : Nat
  institutionId : String
deriving DecidableEq, Repr

/-- Modelled from the spec: `link(person, institution_hint)` — resolve an
institution hint against the seeded Institution set using exact-id match
first, then exact-name match; unresolved hints produce no link (silently
dropped, not an error). -/
def link (institutions : List Institution) (person : Person) (hint : String) :
    Option AffiliationLink :=
  match institutions.find? (fun i => decide (i.id = hint)) with
  | some inst => some ⟨person.pid, inst.id⟩
  | none =>
    match institutions.find? (fun i => decide (i.name = hint)) with
    | some inst => some ⟨person.pid, inst.id⟩
    | none => none

/-- One result of the question-answering pipeline: the answer span, its
score and its character offsets (`start`/`end` in the source). -/
structure QAResult where
  answer : String
  score : ℚ
  startPos : Nat
  stopPos : Nat
deriving DecidableEq, Repr

/-- From `notebooks/summary.ipynb`: pose every question against the context,
sort the results ascending by score, and return the last (highest-scoring)
one.  The Python `results[-1]` raises `IndexError` on an empty list, which
the embedding makes explicit as `none`; the pipeline call itself is the
external model, passed in as `qa`. -/
def answer_questions (qa : String → String → QAResult) (questions : List String)
    (context : String) : Option QAResult :=
  let results := questions.map (fun question => qa question context)
  (results.insertionSort (fun a b => a.score ≤ b.score)).getLast?

/-! ### Basic lemmas about name validity and similarity -/

theorem validName_iff {s : String} : validName s = true ↔ nameTokens s ≠ [] := by
  simp [validName]

theorem tokenSet_nonempty {s : String} (h : validName s = true) :
    (tokenSet s).Nonempty := by
  rw [validName_iff] at h
  cases hn : nameTokens s with
  | nil => exact absurd hn h
  | cons a l =>
    exact ⟨a, by simp [tokenSet, hn]⟩

theorem similarity_nonneg (a b : String) : 0 ≤ similarity a b := by
  simp only [similarity]
  split
  · exact le_refl 0
  · positivity

theorem similarity_le_one (a b : String) : similarity a b ≤ 1 := by
  simp only [similarity]
  split
  · exact zero_le_one
  · rename_i h
    rw [div_le_one (by positivity)]
    exact_mod_cast Finset.card_le_card (Finset.inter_subset_union)

theorem similarity_self {a : String} (h : validName a = true) :
    similarity a a = 1 := by
  have hne : (tokenSet a).card ≠ 0 :=
    Nat.pos_iff_ne_zero.mp (Finset.card_pos.mpr (tokenSet_nonempty h))
  simp only [similarity, Finset.union_self, Finset.inter_self]
  rw [if_neg hne, div_self (by exact_mod_cast hne)]

theorem similarity_eq_one_iff {a b : String} (ha : validName a = true) :
    similarity a b = 1 ↔ tokenSet a = tokenSet b := by
  have hu : (tokenSet a ∪ tokenSet b).Nonempty :=
    (tokenSet_nonempty ha).mono Finset.subset_union_left
  have hune : (tokenSet a ∪ tokenSet b).card ≠ 0 :=
    Nat.pos_iff_ne_zero.mp (Finset.card_pos.mpr hu)
  simp only [similarity]
  rw [if_neg hune]
  constructor
  · intro h
    have hcast : ((tokenSet a ∪ tokenSet b).card : ℚ) ≠ 0 := by exact_mod_cast hune
    rw [div_eq_one_iff_eq hcast] at h
    have hcards : (tokenSet a ∩ tokenSet b).card = (tokenSet a ∪ tokenSet b).card := by
      exact_mod_cast h
    have hsub : tokenSet a ∪ tokenSet b ⊆ tokenSet a ∩ tokenSet b :=
      Finset.eq_of_subset_of_card_le Finset.inter_subset_union hcards.ge ▸
        subset_refl _
    apply Finset.Subset.antisymm
    · intro x hx
      exact (Finset.mem_inter.mp (hsub (Finset.mem_union_left _ hx))).2
    · intro x hx
      exact (Finset.mem_inter.mp (hsub (Finset.mem_union_right _ hx))).1
  · intro h
    rw [h, Finset.union_self] at hune
    rw [h, Finset.inter_self, Finset.union_self]
    exact div_self (by exact_mod_cast hune)

/-! ### Lemmas about the best-candidate search -/

theorem bestCandidate_ne_none (m : Mention) (c : Person) (cs : List Person) :
    bestCandidate m (c :: cs) ≠ none := by
  simp only [bestCandidate]
  cases bestCandidate m cs with
  | none => simp
  | some ds =>
    obtain ⟨d, s⟩ := ds
    dsimp only
    split <;> simp

theorem bestCandidate_exists {m : Mention} {l : List Person} (h : l ≠ []) :
    ∃ q s, bestCandidate m l = some (q, s) := by
  cases l with
  | nil => exact absurd rfl h
  | cons c cs =>
    cases hbc : bestCandidate m (c :: cs) with
    | none => exact absurd hbc (bestCandidate_ne_none m c cs)
    | some ds =>
      obtain ⟨d, s⟩ := ds
      exact ⟨d, s, rfl⟩

/-- The best-candidate search returns a member of the list together with its
own similarity score; that score bounds every candidate's score, and every
candidate strictly before the returned one scores strictly less (ties
resolve to the first encountered in input order). -/
theorem bestCandidate_spec (m : Mention) :
    ∀ (l : List Person) (q : Person) (s : ℚ), bestCandidate m l = some (q, s) →
      s = similarity m.name q.name ∧
      ∃ i : Fin l.length, l.get i = q ∧
        (∀ j : Fin l.length, (j : ℕ) < (i : ℕ) →
          similarity m.name (l.get j).name < s) ∧
        (∀ j : Fin l.length, similarity m.name (l.get j).name ≤ s) := by
  intro l
  induction l with
  | nil => intro q s h; simp [bestCandidate] at h
  | cons c cs ih =>
    intro q s h
    cases hbc : bestCandidate m cs with
    | none =>
      have hnil : cs = [] := by
        cases cs with
        | nil => rfl
        | cons d ds => exact absurd hbc (bestCandidate_ne_none m d ds)
      subst hnil
      simp only [bestCandidate] at h
      obtain ⟨rfl, rfl⟩ : c = q ∧ similarity m.name c.name = s := by
        simpa using h
      refine ⟨rfl, ⟨⟨0, by simp⟩, rfl, ?_, ?_⟩⟩
      · intro j hj
        exact absurd hj (Nat.not_lt_zero _)
      · intro j
        obtain ⟨jv, hjlt⟩ := j
        cases jv with
        | zero => exact le_refl _
        | succ jw => simp at hjlt
    | some ds =>
      obtain ⟨d, s'⟩ := ds
      obtain ⟨hs', i', hget', hlt', hle'⟩ := ih d s' hbc
      simp only [bestCandidate, hbc] at h
      by_cases hc : similarity m.name c.name < s'
      · rw [if_pos hc] at h
        obtain ⟨rfl, rfl⟩ : d = q ∧ s' = s := by simpa using h
        refine ⟨hs', ⟨i'.succ, by simpa using hget', ?_, ?_⟩⟩
        · intro j hj
          obtain ⟨jv, hjlt⟩ := j
          cases jv with
          | zero => exact hc
          | succ jw =>
            exact hlt' ⟨jw, by simpa using hjlt⟩ (by simpa using hj)
        · intro j
          obtain ⟨jv, hjlt⟩ := j
          cases jv with
          | zero => exact le_of_lt hc
          | succ jw => exact hle' ⟨jw, by simpa using hjlt⟩
      · rw [if_neg hc] at h
        obtain ⟨rfl, rfl⟩ : c = q ∧ similarity m.name c.name = s := by
          simpa using h
        refine ⟨rfl, ⟨⟨0, by simp⟩, rfl, ?_, ?_⟩⟩
        · intro j hj
          exact absurd hj (Nat.not_lt_zero _)
        · intro j
          obtain ⟨jv, hjlt⟩ := j
          cases jv with
          | zero => exact le_refl _
          | succ jw =>
            exact le_trans (hle' ⟨jw, by simpa using hjlt⟩) (not_lt.mp hc)

/-- Every list member's score is bounded by the best candidate's score. -/
theorem bestCandidate_le_of_mem {m : Mention} {l : List Person} {q p : Person}
    {s : ℚ} (hbc : bestCandidate m l = some (q, s)) (hp : p ∈ l) :
    similarity m.name p.name ≤ s := by
  obtain ⟨-, -, -, -, hle⟩ := bestCandidate_spec m l q s hbc
  obtain ⟨i, rfl⟩ := List.mem_iff_get.mp hp
  exact hle i

/-- The best candidate is a member of the list and carries its own score. -/
theorem bestCandidate_mem {m : Mention} {l : List Person} {q : Person} {s : ℚ}
    (hbc : bestCandidate m l = some (q, s)) :
    q ∈ l ∧ s = similarity m.name q.name := by
  obtain ⟨hs, i, hget, -, -⟩ := bestCandidate_spec m l q s hbc
  exact ⟨hget ▸ List.get_mem l i.1 i.2, hs⟩

/-! ### Lemmas about ORCID lookup and the store update -/

theorem findOrcid_some {persons : List Person} {o : String} {p : Person}
    (h : findOrcid persons o = some p) : p ∈ persons ∧ p.orcid = some o := by
  refine ⟨List.mem_of_find?_eq_some h, ?_⟩
  have := List.find?_some h
  simpa using this

theorem findOrcid_none {persons : List Person} {o : String}
    (h : findOrcid persons o = none) : ∀ p ∈ persons, p.orcid ≠ some o := by
  intro p hp
  have := List.find?_eq_none.mp h p hp
  simpa using this

theorem findOrcid_isSome {persons : List Person} {o : String}
    (h : ∃ p ∈ persons, p.orcid = some o) : ∃ p, findOrcid persons o = some p := by
  rw [← Option.isSome_iff_exists]
  rw [findOrcid, List.find?_isSome]
  obtain ⟨p, hp, ho⟩ := h
  exact ⟨p, hp, by simpa using ho⟩

theorem mem_noOrcidPool {persons : List Person} {p : Person} :
    p ∈ noOrcidPool persons ↔ p ∈ persons ∧ p.orcid = none := by
  simp [noOrcidPool, List.mem_filter]

/-- A member of the updated store is either the updated Person or an
untouched original with a different identifier. -/
theorem mem_updatePerson {S : Store} {p' q : Person}
    (hq : q ∈ (updatePerson S p').persons) :
    q = p' ∨ (q ∈ S.persons ∧ q.pid ≠ p'.pid) := by
  simp only [updatePerson, List.mem_map] at hq
  obtain ⟨r, hr, hrq⟩ := hq
  by_cases hpid : r.pid = p'.pid
  · left
    rw [if_pos hpid] at hrq
    exact hrq.symm
  · right
    rw [if_neg hpid] at hrq
    exact hrq ▸ ⟨hr, hpid⟩

/-- The updated Person is present in the updated store whenever some
original shares its identifier. -/
theorem updatePerson_mem {S : Store} {p' : Person} {r : Person}
    (hr : r ∈ S.persons) (hpid : r.pid = p'.pid) :
    p' ∈ (updatePerson S p').persons := by
  simp only [updatePerson, List.mem_map]
  exact ⟨r, hr, by rw [if_pos hpid]⟩

theorem updatePerson_length (S : Store) (p' : Person) :
    (updatePerson S p').persons.length = S.persons.length :=
  List.length_map _ _

/-- Updating a Person preserves the at-most-one-Person-per-ORCID invariant,
provided every original sharing the updated Person's ORCID already shares
its identifier. -/
theorem uniqueOrcid_updatePerson {S : Store} (hS : uniqueOrcid S) (p' : Person)
    (h : ∀ r ∈ S.persons, r.orcid = p'.orcid → r.pid = p'.pid) :
    uniqueOrcid (updatePerson S p') := by
  intro q1 hq1 q2 hq2 hsome heq
  rcases mem_updatePerson hq1 with rfl | ⟨hq1m, hq1pid⟩ <;>
    rcases mem_updatePerson hq2 with rfl | ⟨hq2m, hq2pid⟩
  · rfl
  · exact absurd (h q2 hq2m heq.symm) hq2pid
  · exact absurd (h q1 hq1m heq) hq1pid
  · exact hS q1 hq1m q2 hq2m hsome heq

/-- Appending a Person whose ORCID (if any) is fresh preserves the
invariant. -/
theorem uniqueOrcid_append {S : Store} (hS : uniqueOrcid S) {pn : Person}
    (h : pn.orcid.isSome = true → ∀ r ∈ S.persons, r.orcid ≠ pn.orcid) :
    uniqueOrcid ⟨S.persons ++ [pn], S.nextId + 1⟩ := by
  intro q1 hq1 q2 hq2 hsome heq
  simp only [List.mem_append, List.mem_singleton] at hq1 hq2
  rcases hq1 with hq1 | rfl <;> rcases hq2 with hq2 | rfl
  · exact hS q1 hq1 q2 hq2 hsome heq
  · exact absurd heq (h (heq ▸ hsome) q1 hq1)
  · exact absurd heq.symm (h hsome q2 hq2)
  · rfl

/-! ### The resolver preserves the at-most-one-Person-per-ORCID invariant -/

theorem uniqueOrcid_resolve (cfg : Config) (S : Store) (m : Mention)
    (hS : uniqueOrcid S) : uniqueOrcid (resolve cfg S m).2 := by
  unfold resolve
  by_cases hv : validName m.name
  case neg =>
    rw [if_neg hv]
    exact hS
  rw [if_pos hv]
  cases hm : m.orcid with
  | none =>
    dsimp only
    cases hbc : bestCandidate m S.persons with
    | none =>
      dsimp only [createNew]
      apply uniqueOrcid_append hS
      intro hsome
      simp [newPerson, hm] at hsome
    | some qs =>
      obtain ⟨q, s⟩ := qs
      dsimp only
      split
      · exact hS
      · dsimp only [createNew]
        apply uniqueOrcid_append hS
        intro hsome
        simp [newPerson, hm] at hsome
  | some o =>
    dsimp only
    cases hf : findOrcid S.persons o with
    | some p =>
      obtain ⟨hpm, hpo⟩ := findOrcid_some hf
      dsimp only
      have hpid : (if p.name = "" then { p with name := m.name } else p).pid
          = p.pid := by split <;> rfl
      have horc : (if p.name = "" then { p with name := m.name } else p).orcid
          = p.orcid := by split <;> rfl
      apply uniqueOrcid_updatePerson hS
      intro r hr hro
      rw [horc] at hro
      rw [hpid]
      have : r = p := hS r hr p hpm (by rw [hro, hpo]; rfl) hro
      rw [this]
    | none =>
      dsimp only
      cases hbc : bestCandidate m (noOrcidPool S.persons) with
      | none =>
        dsimp only [createNew]
        apply uniqueOrcid_append hS
        intro hsome r hr
        rw [newPerson, hm]
        exact fun hcon => findOrcid_none hf r hr hcon
      | some qs =>
        obtain ⟨q, s⟩ := qs
        dsimp only
        split
        · apply uniqueOrcid_updatePerson hS
          intro r hr hro
          exact absurd hro (findOrcid_none hf r hr)
        · dsimp only [createNew]
          apply uniqueOrcid_append hS
          intro hsome r hr
          rw [newPerson, hm]
          exact fun hcon => findOrcid_none hf r hr hcon

/-- Resolving a well-formed ORCID-bearing mention leaves the store with a
Person carrying that ORCID, whose identifier is the one the outcome
yields. -/
theorem resolve_orcid_mem (cfg : Config) (S : Store) (m : Mention) (o : String)
    (hm : m.orcid = some o) (hv : validName m.name = true) :
    ∃ p, p ∈ (resolve cfg S m).2.persons ∧ p.orcid = some o ∧
      (resolve cfg S m).1.pid? = some p.pid := by
  unfold resolve
  rw [if_pos hv, hm]
  dsimp only
  cases hf : findOrcid S.persons o with
    | some p =>
      obtain ⟨hpm, hpo⟩ := findOrcid_some hf
      dsimp only
      have hpid : (if p.name = "" then { p with name := m.name } else p).pid
          = p.pid := by split <;> rfl
      have horc : (if p.name = "" then { p with name := m.name } else p).orcid
          = p.orcid := by split <;> rfl
      refine ⟨_, updatePerson_mem hpm hpid.symm, by rw [horc, hpo], rfl⟩
    | none =>
      dsimp only
      cases hbc : bestCandidate m (noOrcidPool S.persons) with
      | none =>
        refine ⟨newPerson S m, ?_, by rw [newPerson, hm], rfl⟩
        simp [createNew]
      | some qs =>
        obtain ⟨q, s⟩ := qs
        dsimp only
        split
        · obtain ⟨hqm, -⟩ := mem_noOrcidPool.mp (bestCandidate_mem hbc).1
          exact ⟨_, updatePerson_mem hqm rfl, rfl, rfl⟩
        · refine ⟨newPerson S m, ?_, by rw [newPerson, hm], rfl⟩
          simp [createNew]

/-- When some Person in the store already carries the mention's ORCID,
resolution matches (by exact ORCID) a store member carrying that ORCID and
yields its identifier. -/
theorem resolve_orcid_found (cfg : Config) (S : Store) (m : Mention) (o : String)
    (hm : m.orcid = some o) (hv : validName m.name = true)
    (hex : ∃ p ∈ S.persons, p.orcid = some o) :
    ∃ q, q ∈ S.persons ∧ q.orcid = some o ∧
      (resolve cfg S m).1.pid? = some q.pid := by
  obtain ⟨q, hf⟩ := findOrcid_isSome hex
  obtain ⟨hqm, hqo⟩ := findOrcid_some hf
  unfold resolve
  rw [if_pos hv, hm]
  dsimp only
  rw [hf]
  dsimp only
  have hpid : (if q.name = "" then { q with name := m.name } else q).pid
      = q.pid := by split <;> rfl
  exact ⟨q, hqm, hqo, by rw [Outcome.pid?, hpid]⟩

/-- Resolving any sequence of mentions preserves the invariant. -/
theorem uniqueOrcid_runMentions (cfg : Config) :
    ∀ (ms : List Mention) (S : Store), uniqueOrcid S →
      uniqueOrcid (runMentions cfg S ms) := by
  intro ms
  induction ms with
  | nil => intro S hS; exact hS
  | cons m ms ih =>
    intro S hS
    exact ih _ (uniqueOrcid_resolve cfg S m hS)

theorem uniqueOrcid_emptyStore : uniqueOrcid emptyStore := by
  intro p hp
  simp [emptyStore] at hp

/-! ### Claim theorems -/

/-- C1: every store reachable from the empty store by resolve calls has at
most one Person per distinct ORCID, and any two well-formed mentions
carrying the same ORCID, resolved in sequence against a consistent store,
yield the same Person identifier (the invariant still holding
afterwards). -/
theorem resolve_same_orcid_same_person (cfg : Config) :
    (∀ ms : List Mention, uniqueOrcid (runMentions cfg emptyStore ms)) ∧
    (∀ (S : Store) (m1 m2 : Mention) (o : String), uniqueOrcid S →
      m1.orcid = some o → m2.orcid = some o →
      validName m1.name = true → validName m2.name = true →
      uniqueOrcid (resolve cfg (resolve cfg S m1).2 m2).2 ∧
      ∃ i, (resolve cfg S m1).1.pid? = some i ∧
        (resolve cfg (resolve cfg S m1).2 m2).1.pid? = some i) := by
  constructor
  · intro ms
    exact uniqueOrcid_runMentions cfg ms emptyStore uniqueOrcid_emptyStore
  · intro S m1 m2 o hS h1 h2 v1 v2
    have hS1 := uniqueOrcid_resolve cfg S m1 hS
    refine ⟨uniqueOrcid_resolve cfg _ m2 hS1, ?_⟩
    obtain ⟨p1, hp1m, hp1o, hpid1⟩ := resolve_orcid_mem cfg S m1 o h1 v1
    obtain ⟨q, hqm, hqo, hpid2⟩ :=
      resolve_orcid_found cfg _ m2 o h2 v2 ⟨p1, hp1m, hp1o⟩
    have hqp : q = p1 := hS1 q hqm p1 hp1m (by rw [hqo]; rfl) (by rw [hqo, hp1o])
    exact ⟨p1.pid, hpid1, by rw [← hqp]; exact hpid2⟩

theorem resolve_same_orcid_same_person_witness :
    uniqueOrcid (resolve ⟨0, 0⟩
        (resolve ⟨0, 0⟩ ⟨[⟨0, "Ada Lovelace", some "0000-0001"⟩], 1⟩
          ⟨"A. Lovelace", some "0000-0001"⟩).2
        ⟨"Ada Lovelace", some "0000-0001"⟩).2 ∧
    ∃ i, (resolve ⟨0, 0⟩ ⟨[⟨0, "Ada Lovelace", some "0000-0001"⟩], 1⟩
        ⟨"A. Lovelace", some "0000-0001"⟩).1.pid? = some i ∧
      (resolve ⟨0, 0⟩
          (resolve ⟨0, 0⟩ ⟨[⟨0, "Ada Lovelace", some "0000-0001"⟩], 1⟩
            ⟨"A. Lovelace", some "0000-0001"⟩).2
          ⟨"Ada Lovelace", some "0000-0001"⟩).1.pid? = some i :=
  (resolve_same_orcid_same_person ⟨0, 0⟩).2
    ⟨[⟨0, "Ada Lovelace", some "0000-0001"⟩], 1⟩
    ⟨"A. Lovelace", some "0000-0001"⟩ ⟨"Ada Lovelace", some "0000-0001"⟩
    "0000-0001" (by decide) rfl rfl (by decide) (by decide)

/-- C2: a mention with an ORCID that exactly matches a stored candidate's
ORCID resolves to that Person regardless of name dissimilarity; the match
keeps the identifier and ORCID, the stored name is unchanged (or backfilled
when previously blank), and no Person is added to the store. -/
theorem resolve_orcid_exact_match (cfg : Config) (S : Store) (m : Mention)
    (o : String) (p : Person) (hS : uniqueOrcid S) (hm : m.orcid = some o)
    (hv : validName m.name = true) (hp : p ∈ S.persons)
    (hpo : p.orcid = some o) :
    ∃ p', (resolve cfg S m).1 = .matched p' ∧ p'.pid = p.pid ∧
      p'.orcid = p.orcid ∧
      p'.name = (if p.name = "" then m.name else p.name) ∧
      (resolve cfg S m).2.persons.length = S.persons.length := by
  obtain ⟨q, hf⟩ := findOrcid_isSome ⟨p, hp, hpo⟩
  obtain ⟨hqm, hqo⟩ := findOrcid_some hf
  have hqp : q = p := hS q hqm p hp (by rw [hqo]; rfl) (by rw [hqo, hpo])
  subst hqp
  unfold resolve
  rw [if_pos hv, hm]
  dsimp only
  rw [hf]
  dsimp only
  refine ⟨_, rfl, ?_, ?_, ?_, updatePerson_length S _⟩
  · split <;> rfl
  · split <;> rfl
  · split <;> simp_all

theorem resolve_orcid_exact_match_witness :
    ∃ p', (resolve ⟨0, 0⟩
        ⟨[⟨0, "John Smith", some "0000-0001-1111-1111"⟩], 1⟩
        ⟨"J. Smith", some "0000-0001-1111-1111"⟩).1 = .matched p' ∧
      p'.pid = (⟨0, "John Smith", some "0000-0001-1111-1111"⟩ : Person).pid ∧
      p'.orcid = (⟨0, "John Smith", some "0000-0001-1111-1111"⟩ : Person).orcid ∧
      p'.name = (if (⟨0, "John Smith", some "0000-0001-1111-1111"⟩ : Person).name = ""
        then (⟨"J. Smith", some "0000-0001-1111-1111"⟩ : Mention).name
        else (⟨0, "John Smith", some "0000-0001-1111-1111"⟩ : Person).name) ∧
      (resolve ⟨0, 0⟩ ⟨[⟨0, "John Smith", some "0000-0001-1111-1111"⟩], 1⟩
        ⟨"J. Smith", some "0000-0001-1111-1111"⟩).2.persons.length =
      (⟨[⟨0, "John Smith", some "0000-0001-1111-1111"⟩], 1⟩ : Store).persons.length :=
  resolve_orcid_exact_match ⟨0, 0⟩
    ⟨[⟨0, "John Smith", some "0000-0001-1111-1111"⟩], 1⟩
    ⟨"J. Smith", some "0000-0001-1111-1111"⟩ "0000-0001-1111-1111"
    ⟨0, "John Smith", some "0000-0001-1111-1111"⟩
    (by decide) rfl (by decide) (by decide) rfl

/-- C3: an ORCID-bearing mention whose ORCID differs from every stored
candidate's ORCID creates a new Person even under exact name equality, and
when the best score among the ORCID-free candidates does not exceed the
ORCID-context threshold the mention likewise becomes a new Person. -/
theorem resolve_orcid_mismatch_new_person (cfg : Config) (S : Store)
    (m : Mention) (o : String) (hm : m.orcid = some o)
    (hv : validName m.name = true) :
    ((∀ p ∈ S.persons, p.orcid.isSome = true ∧ p.orcid ≠ some o) →
      ∃ pn, (resolve cfg S m).1 = .created pn ∧ pn.pid = S.nextId ∧
        pn.name = m.name ∧ pn.orcid = some o ∧
        (resolve cfg S m).2.persons = S.persons ++ [pn]) ∧
    ((∀ p ∈ S.persons, p.orcid ≠ some o) →
      (∀ p ∈ S.persons, p.orcid = none →
        similarity m.name p.name ≤ cfg.orcidNameSimilarityThreshold) →
      ∃ pn, (resolve cfg S m).1 = .created pn ∧ pn.pid = S.nextId ∧
        pn.name = m.name ∧ pn.orcid = some o ∧
        (resolve cfg S m).2.persons = S.persons ++ [pn]) := by
  constructor
  · intro hall
    have hf : findOrcid S.persons o = none := by
      rw [findOrcid, List.find?_eq_none]
      intro p hp
      simpa using (hall p hp).2
    have hpool : noOrcidPool S.persons = [] := by
      rw [noOrcidPool, List.filter_eq_nil_iff]
      intro p hp
      have h1 := (hall p hp).1
      simp only [Option.isSome_iff_exists] at h1
      obtain ⟨a, ha⟩ := h1
      simp [ha]
    unfold resolve
    rw [if_pos hv, hm]
    dsimp only
    rw [hf]
    dsimp only
    rw [hpool]
    exact ⟨newPerson S m, rfl, rfl, rfl, by rw [newPerson, hm], rfl⟩
  · intro hall hbelow
    have hf : findOrcid S.persons o = none := by
      rw [findOrcid, List.find?_eq_none]
      intro p hp
      simpa using hall p hp
    unfold resolve
    rw [if_pos hv, hm]
    dsimp only
    rw [hf]
    dsimp only
    cases hbc : bestCandidate m (noOrcidPool S.persons) with
    | none => exact ⟨newPerson S m, rfl, rfl, rfl, by rw [newPerson, hm], rfl⟩
    | some qs =>
      obtain ⟨q, s⟩ := qs
      obtain ⟨hqmem, hqs⟩ := bestCandidate_mem hbc
      obtain ⟨hqm, hqnone⟩ := mem_noOrcidPool.mp hqmem
      have hle : s ≤ cfg.orcidNameSimilarityThreshold :=
        hqs ▸ hbelow q hqm hqnone
      dsimp only
      rw [if_neg (not_lt.mpr hle)]
      exact ⟨newPerson S m, rfl, rfl, rfl, by rw [newPerson, hm], rfl⟩

theorem resolve_orcid_mismatch_new_person_witness :
    (∃ pn, (resolve ⟨0, 0⟩ ⟨[⟨0, "John Smith", some "A"⟩], 1⟩
        ⟨"John Smith", some "C"⟩).1 = .created pn ∧
      pn.pid = (⟨[⟨0, "John Smith", some "A"⟩], 1⟩ : Store).nextId ∧
      pn.name = (⟨"John Smith", some "C"⟩ : Mention).name ∧
      pn.orcid = some "C" ∧
      (resolve ⟨0, 0⟩ ⟨[⟨0, "John Smith", some "A"⟩], 1⟩
        ⟨"John Smith", some "C"⟩).2.persons =
        (⟨[⟨0, "John Smith", some "A"⟩], 1⟩ : Store).persons ++ [pn]) ∧
    (∃ pn, (resolve ⟨0, 0⟩ ⟨[⟨0, "John Smith", some "A"⟩], 1⟩
        ⟨"John Smith", some "C"⟩).1 = .created pn ∧
      pn.pid = (⟨[⟨0, "John Smith", some "A"⟩], 1⟩ : Store).nextId ∧
      pn.name = (⟨"John Smith", some "C"⟩ : Mention).name ∧
      pn.orcid = some "C" ∧
      (resolve ⟨0, 0⟩ ⟨[⟨0, "John Smith", some "A"⟩], 1⟩
        ⟨"John Smith", some "C"⟩).2.persons =
        (⟨[⟨0, "John Smith", some "A"⟩], 1⟩ : Store).persons ++ [pn]) :=
  ⟨(resolve_orcid_mismatch_new_person ⟨0, 0⟩ ⟨[⟨0, "John Smith", some "A"⟩], 1⟩
      ⟨"John Smith", some "C"⟩ "C" rfl (by decide)).1 (by decide),
   (resolve_orcid_mismatch_new_person ⟨0, 0⟩ ⟨[⟨0, "John Smith", some "A"⟩], 1⟩
      ⟨"John Smith", some "C"⟩ "C" rfl (by decide)).2 (by decide) (by decide)⟩

/-- C4: a mention without an ORCID is accepted against the best-scoring
candidate exactly when that score strictly exceeds the name-only threshold;
a score at or below the threshold (including exact equality) always creates
a new Person. -/
theorem resolve_name_only_threshold (cfg : Config) (S : Store) (m : Mention)
    (hm : m.orcid = none) (hv : validName m.name = true) :
    (resolve cfg S m).1.isCreated = true ↔
      ∀ p ∈ S.persons, similarity m.name p.name ≤ cfg.nameSimilarityThreshold := by
  unfold resolve
  rw [if_pos hv, hm]
  dsimp only
  cases hbc : bestCandidate m S.persons with
  | none =>
    have hnil : S.persons = [] := by
      cases hp : S.persons with
      | nil => rfl
      | cons c cs =>
        rw [hp] at hbc
        exact absurd hbc (bestCandidate_ne_none m c cs)
    apply iff_of_true rfl
    intro p hp
    rw [hnil] at hp
    exact absurd hp (List.not_mem_nil p)
  | some qs =>
    obtain ⟨q, s⟩ := qs
    obtain ⟨hqmem, hqs⟩ := bestCandidate_mem hbc
    dsimp only
    by_cases hts : cfg.nameSimilarityThreshold < s
    · rw [if_pos hts]
      apply iff_of_false (by simp [Outcome.isCreated])
      intro hall
      exact absurd (hqs ▸ hall q hqmem) (not_le.mpr hts)
    · rw [if_neg hts]
      apply iff_of_true rfl
      intro p hp
      exact le_trans (bestCandidate_le_of_mem hbc hp) (not_lt.mp hts)

theorem resolve_name_only_threshold_witness :
    (resolve ⟨0, 0⟩ ⟨[⟨0, "John Smith", some "A"⟩], 1⟩
      ⟨"Jon Smyth", none⟩).1.isCreated = true ↔
    ∀ p ∈ (⟨[⟨0, "John Smith", some "A"⟩], 1⟩ : Store).persons,
      similarity (⟨"Jon Smyth", none⟩ : Mention).name p.name ≤
        (⟨0, 0⟩ : Config).nameSimilarityThreshold :=
  resolve_name_only_threshold ⟨0, 0⟩ ⟨[⟨0, "John Smith", some "A"⟩], 1⟩
    ⟨"Jon Smyth", none⟩ rfl (by decide)

/-- C5 counterexample: the claim "a no-ORCID mention whose name is identical
to the stored name of some existing Person resolves to that Person" fails
when two stored Persons carry the identical name: the mention "John Smith"
is name-identical to Person 1, yet resolve returns Person 0, the first
candidate attaining the maximal score. -/
theorem resolve_exact_name_counterexample :
    (⟨"John Smith", none⟩ : Mention).orcid = none ∧
    (⟨1, "John Smith", some "B"⟩ : Person) ∈
      (⟨[⟨0, "John Smith", some "A"⟩, ⟨1, "John Smith", some "B"⟩], 2⟩ :
        Store).persons ∧
    (⟨1, "John Smith", some "B"⟩ : Person).name =
      (⟨"John Smith", none⟩ : Mention).name ∧
    (resolve ⟨0, 0⟩
      ⟨[⟨0, "John Smith", some "A"⟩, ⟨1, "John Smith", some "B"⟩], 2⟩
      ⟨"John Smith", none⟩).1 = .matched ⟨0, "John Smith", some "A"⟩ ∧
    (resolve ⟨0, 0⟩
      ⟨[⟨0, "John Smith", some "A"⟩, ⟨1, "John Smith", some "B"⟩], 2⟩
      ⟨"John Smith", none⟩).1 ≠ .matched ⟨1, "John Smith", some "B"⟩ := by
  have hval : validName "John Smith" = true := by decide
  have hsim : similarity "John Smith" "John Smith" = 1 := similarity_self hval
  have hbc : bestCandidate ⟨"John Smith", none⟩
      [⟨0, "John Smith", some "A"⟩, ⟨1, "John Smith", some "B"⟩] =
      some (⟨0, "John Smith", some "A"⟩, 1) := by
    simp [bestCandidate, hsim]
  have hres : (resolve ⟨0, 0⟩
      ⟨[⟨0, "John Smith", some "A"⟩, ⟨1, "John Smith", some "B"⟩], 2⟩
      ⟨"John Smith", none⟩).1 = .matched ⟨0, "John Smith", some "A"⟩ := by
    unfold resolve
    rw [if_pos hval]
    dsimp only
    rw [hbc]
    dsimp only
    rw [if_pos (show (0:ℚ) < 1 by decide)]
  refine ⟨rfl, by decide, rfl, hres, ?_⟩
  rw [hres]
  decide

/-- C5 amended: a no-ORCID mention whose name is identical to the stored
name of some candidate never creates a new Person (the store is unchanged,
provided the threshold is below the maximal score 1): resolve returns an
existing candidate whose normalized token set coincides with the mention's;
it is the name-identical Person itself whenever no earlier candidate attains
the same maximal score. -/
theorem resolve_exact_name_rematch (cfg : Config) (S : Store) (m : Mention)
    (p : Person) (ht : cfg.nameSimilarityThreshold < 1) (hm : m.orcid = none)
    (hv : validName m.name = true) (hp : p ∈ S.persons)
    (hn : p.name = m.name) :
    ∃ q, q ∈ S.persons ∧ resolve cfg S m = (.matched q, S) ∧
      tokenSet q.name = tokenSet m.name := by
  obtain ⟨q, s, hbc⟩ := bestCandidate_exists (List.ne_nil_of_mem hp)
  obtain ⟨hqmem, hqs⟩ := bestCandidate_mem hbc
  have h1 : similarity m.name p.name = 1 := by
    rw [hn]
    exact similarity_self hv
  have hs1 : s = 1 := by
    refine le_antisymm ?_ ?_
    · rw [hqs]
      exact similarity_le_one _ _
    · rw [← h1]
      exact bestCandidate_le_of_mem hbc hp
  refine ⟨q, hqmem, ?_, ?_⟩
  · unfold resolve
    rw [if_pos hv, hm]
    dsimp only
    rw [hbc]
    dsimp only
    rw [if_pos (hs1 ▸ ht)]
  · have hq1 : similarity m.name q.name = 1 := by rw [← hqs, hs1]
    exact ((similarity_eq_one_iff hv).mp hq1).symm

theorem resolve_exact_name_rematch_witness :
    ∃ q, q ∈ (⟨[⟨0, "Jane Doe", some "A"⟩, ⟨1, "John Smith", none⟩], 2⟩ :
        Store).persons ∧
      resolve ⟨0, 0⟩ ⟨[⟨0, "Jane Doe", some "A"⟩, ⟨1, "John Smith", none⟩], 2⟩
        ⟨"John Smith", none⟩ =
        (.matched q, ⟨[⟨0, "Jane Doe", some "A"⟩, ⟨1, "John Smith", none⟩], 2⟩) ∧
      tokenSet q.name = tokenSet (⟨"John Smith", none⟩ : Mention).name :=
  resolve_exact_name_rematch ⟨0, 0⟩
    ⟨[⟨0, "Jane Doe", some "A"⟩, ⟨1, "John Smith", none⟩], 2⟩
    ⟨"John Smith", none⟩ ⟨1, "John Smith", none⟩
    (by decide) rfl (by decide) (by decide) rfl

/-- C6: whenever a no-ORCID mention is accepted against the candidate list,
resolve returns the first candidate attaining the maximal similarity score:
every candidate scores no higher, and every candidate strictly before the
returned one scores strictly lower — so ties among equally-scoring
candidates resolve to the first in stable input order. -/
theorem resolve_tie_first_in_order (cfg : Config) (S : Store) (m : Mention)
    (hm : m.orcid = none) (hv : validName m.name = true)
    (hacc : ∃ p ∈ S.persons,
      cfg.nameSimilarityThreshold < similarity m.name p.name) :
    ∃ i : Fin S.persons.length,
      (resolve cfg S m).1 = .matched (S.persons.get i) ∧
      (∀ j : Fin S.persons.length, similarity m.name (S.persons.get j).name ≤
        similarity m.name (S.persons.get i).name) ∧
      (∀ j : Fin S.persons.length, (j : ℕ) < (i : ℕ) →
        similarity m.name (S.persons.get j).name <
          similarity m.name (S.persons.get i).name) := by
  obtain ⟨p, hp, hps⟩ := hacc
  obtain ⟨q, s, hbc⟩ := bestCandidate_exists (List.ne_nil_of_mem hp)
  obtain ⟨hqs, i, hget, hlt, hle⟩ := bestCandidate_spec m S.persons q s hbc
  have hts : cfg.nameSimilarityThreshold < s :=
    lt_of_lt_of_le hps (bestCandidate_le_of_mem hbc hp)
  refine ⟨i, ?_, ?_, ?_⟩
  · unfold resolve
    rw [if_pos hv, hm]
    dsimp only
    rw [hbc]
    dsimp only
    rw [if_pos hts, hget]
  · intro j
    rw [hget, ← hqs]
    exact hle j
  · intro j hj
    rw [hget, ← hqs]
    exact hlt j hj

theorem resolve_tie_first_in_order_witness :
    ∃ i : Fin (⟨[⟨0, "Ada Lovelace", none⟩, ⟨1, "Ada Lovelace", none⟩], 2⟩ :
        Store).persons.length,
      (resolve ⟨0, 0⟩ ⟨[⟨0, "Ada Lovelace", none⟩, ⟨1, "Ada Lovelace", none⟩], 2⟩
        ⟨"Ada Lovelace", none⟩).1 =
        .matched ((⟨[⟨0, "Ada Lovelace", none⟩, ⟨1, "Ada Lovelace", none⟩], 2⟩ :
          Store).persons.get i) ∧
      (∀ j : Fin (⟨[⟨0, "Ada Lovelace", none⟩, ⟨1, "Ada Lovelace", none⟩], 2⟩ :
          Store).persons.length,
        similarity (⟨"Ada Lovelace", none⟩ : Mention).name
          ((⟨[⟨0, "Ada Lovelace", none⟩, ⟨1, "Ada Lovelace", none⟩], 2⟩ :
            Store).persons.get j).name ≤
        similarity (⟨"Ada Lovelace", none⟩ : Mention).name
          ((⟨[⟨0, "Ada Lovelace", none⟩, ⟨1, "Ada Lovelace", none⟩], 2⟩ :
            Store).persons.get i).name) ∧
      (∀ j : Fin (⟨[⟨0, "Ada Lovelace", none⟩, ⟨1, "Ada Lovelace", none⟩], 2⟩ :
          Store).persons.length, (j : ℕ) < (i : ℕ) →
        similarity (⟨"Ada Lovelace", none⟩ : Mention).name
          ((⟨[⟨0, "Ada Lovelace", none⟩, ⟨1, "Ada Lovelace", none⟩], 2⟩ :
            Store).persons.get j).name <
        similarity (⟨"Ada Lovelace", none⟩ : Mention).name
          ((⟨[⟨0, "Ada Lovelace", none⟩, ⟨1, "Ada Lovelace", none⟩], 2⟩ :
            Store).persons.get i).name) :=
  resolve_tie_first_in_order ⟨0, 0⟩
    ⟨[⟨0, "Ada Lovelace", none⟩, ⟨1, "Ada Lovelace", none⟩], 2⟩
    ⟨"Ada Lovelace", none⟩ rfl (by decide)
    ⟨⟨0, "Ada Lovelace", none⟩, by decide, by
      show (0 : ℚ) < similarity "Ada Lovelace" "Ada Lovelace"
      rw [similarity_self (by decide)]
      decide⟩

/-- C7: the name-similarity function is symmetric — the score of A against
B equals the score of B against A. -/
theorem similarity_symmetric (a b : String) : similarity a b = similarity b a :=
  similarity_comm a b

/-- C8: a mention with a malformed (no usable token) name is skipped with
the warning-level outcome and the store is left unchanged; a well-formed
mention never fails — resolve always returns a match-or-create decision. -/
theorem resolve_skip_malformed_total (cfg : Config) (S : Store) (m : Mention) :
    (validName m.name = false → resolve cfg S m = (.skipped, S)) ∧
    (validName m.name = true →
      (∃ p, (resolve cfg S m).1 = .matched p) ∨
        (∃ p, (resolve cfg S m).1 = .created p)) := by
  constructor
  · intro hv
    unfold resolve
    rw [hv]
    rfl
  · intro hv
    unfold resolve
    rw [if_pos hv]
    cases hmo : m.orcid with
    | none =>
      dsimp only
      cases hbc : bestCandidate m S.persons with
      | none => exact Or.inr ⟨newPerson S m, rfl⟩
      | some qs =>
        obtain ⟨q, s⟩ := qs
        dsimp only
        split
        · exact Or.inl ⟨q, rfl⟩
        · exact Or.inr ⟨newPerson S m, rfl⟩
    | some o =>
      dsimp only
      cases hf : findOrcid S.persons o with
      | some p =>
        exact Or.inl ⟨_, rfl⟩
      | none =>
        dsimp only
        cases hbc : bestCandidate m (noOrcidPool S.persons) with
        | none => exact Or.inr ⟨newPerson S m, rfl⟩
        | some qs =>
          obtain ⟨q, s⟩ := qs
          dsimp only
          split
          · exact Or.inl ⟨_, rfl⟩
          · exact Or.inr ⟨newPerson S m, rfl⟩

theorem resolve_skip_malformed_total_witness :
    resolve ⟨0, 0⟩ ⟨[⟨0, "Ada Lovelace", some "A"⟩], 1⟩ ⟨"   ", some "B"⟩ =
      (.skipped, ⟨[⟨0, "Ada Lovelace", some "A"⟩], 1⟩) ∧
    ((∃ p, (resolve ⟨0, 0⟩ ⟨[⟨0, "Ada Lovelace", some "A"⟩], 1⟩
        ⟨"Grace Hopper", none⟩).1 = .matched p) ∨
      (∃ p, (resolve ⟨0, 0⟩ ⟨[⟨0, "Ada Lovelace", some "A"⟩], 1⟩
        ⟨"Grace Hopper", none⟩).1 = .created p)) :=
  ⟨(resolve_skip_malformed_total ⟨0, 0⟩ ⟨[⟨0, "Ada Lovelace", some "A"⟩], 1⟩
      ⟨"   ", some "B"⟩).1 (by decide),
   (resolve_skip_malformed_total ⟨0, 0⟩ ⟨[⟨0, "Ada Lovelace", some "A"⟩], 1⟩
      ⟨"Grace Hopper", none⟩).2 (by decide)⟩

/-- C9: an institution hint resolves by exact-id match first (even when
another institution's name equals the hint), then by exact-name match; a
hint matching neither an id nor a name yields no link and no error. -/
theorem link_exact_id_then_name (institutions : List Institution)
    (person : Person) (hint : String) :
    ((∃ i ∈ institutions, i.id = hint) →
      ∃ inst, inst ∈ institutions ∧ inst.id = hint ∧
        link institutions person hint = some ⟨person.pid, inst.id⟩) ∧
    ((∀ i ∈ institutions, i.id ≠ hint) → (∃ i ∈ institutions, i.name = hint) →
      ∃ inst, inst ∈ institutions ∧ inst.name = hint ∧
        link institutions person hint = some ⟨person.pid, inst.id⟩) ∧
    ((∀ i ∈ institutions, i.id ≠ hint ∧ i.name ≠ hint) →
      link institutions person hint = none) := by
  refine ⟨?_, ?_, ?_⟩
  · intro hex
    have hsome : (institutions.find? (fun i => decide (i.id = hint))).isSome := by
      rw [List.find?_isSome]
      obtain ⟨i, hi, hid⟩ := hex
      exact ⟨i, hi, by simpa using hid⟩
    obtain ⟨inst, hfid⟩ := Option.isSome_iff_exists.mp hsome
    refine ⟨inst, List.mem_of_find?_eq_some hfid, ?_, ?_⟩
    · simpa using List.find?_some hfid
    · unfold link
      rw [hfid]
  · intro hall hex
    have hfid : institutions.find? (fun i => decide (i.id = hint)) = none := by
      rw [List.find?_eq_none]
      intro i hi
      simpa using hall i hi
    have hsome : (institutions.find? (fun i => decide (i.name = hint))).isSome := by
      rw [List.find?_isSome]
      obtain ⟨i, hi, hname⟩ := hex
      exact ⟨i, hi, by simpa using hname⟩
    obtain ⟨inst, hfn⟩ := Option.isSome_iff_exists.mp hsome
    refine ⟨inst, List.mem_of_find?_eq_some hfn, ?_, ?_⟩
    · simpa using List.find?_some hfn
    · unfold link
      rw [hfid]
      dsimp only
      rw [hfn]
  · intro hall
    have hfid : institutions.find? (fun i => decide (i.id = hint)) = none := by
      rw [List.find?_eq_none]
      intro i hi
      simpa using (hall i hi).1
    have hfn : institutions.find? (fun i => decide (i.name = hint)) = none := by
      rw [List.find?_eq_none]
      intro i hi
      simpa using (hall i hi).2
    unfold link
    rw [hfid]
    dsimp only
    rw [hfn]

theorem link_exact_id_then_name_witness :
    (∃ inst, inst ∈ [(⟨"i1", "KTH", none, none, none⟩ : Institution),
        ⟨"i2", "Oxford", none, none, none⟩] ∧
      inst.id = "i2" ∧
      link [(⟨"i1", "KTH", none, none, none⟩ : Institution),
        ⟨"i2", "Oxford", none, none, none⟩] ⟨7, "Ada Lovelace", none⟩ "i2" =
        some ⟨(⟨7, "Ada Lovelace", none⟩ : Person).pid, inst.id⟩) ∧
    link [(⟨"i1", "KTH", none, none, none⟩ : Institution),
      ⟨"i2", "Oxford", none, none, none⟩] ⟨7, "Ada Lovelace", none⟩ "Unknown" =
      none :=
  ⟨(link_exact_id_then_name [⟨"i1", "KTH", none, none, none⟩,
      ⟨"i2", "Oxford", none, none, none⟩] ⟨7, "Ada Lovelace", none⟩ "i2").1
      ⟨⟨"i2", "Oxford", none, none, none⟩, by decide, rfl⟩,
   (link_exact_id_then_name [⟨"i1", "KTH", none, none, none⟩,
      ⟨"i2", "Oxford", none, none, none⟩] ⟨7, "Ada Lovelace", none⟩
      "Unknown").2.2 (by decide)⟩

/-! ### The notebook's question-answering helper -/

instance : IsTotal QAResult (fun a b => a.score ≤ b.score) :=
  ⟨fun a b => le_total a.score b.score⟩

instance : IsTrans QAResult (fun a b => a.score ≤ b.score) :=
  ⟨fun _ _ _ h1 h2 => le_trans h1 h2⟩

/-- In a list sorted ascending by score, every element's score is bounded by
the last element's score. -/
theorem score_le_getLast {l : List QAResult}
    (hs : l.Sorted (fun a b => a.score ≤ b.score)) (h : l ≠ []) :
    ∀ x ∈ l, x.score ≤ (l.getLast h).score := by
  intro x hx
  obtain ⟨i, rfl⟩ := List.mem_iff_get.mp hx
  have hpos : 0 < l.length := List.length_pos.mpr h
  have hlast : l.getLast h = l.get ⟨l.length - 1, by omega⟩ :=
    List.getLast_eq_get l h
  by_cases hi : (i : ℕ) = l.length - 1
  · rw [hlast]
    have : i = ⟨l.length - 1, by omega⟩ := Fin.ext hi
    rw [this]
  · have hilt : (i : ℕ) < l.length - 1 := by
      have := i.2
      omega
    rw [hlast]
    exact List.pairwise_iff_get.mp hs i ⟨l.length - 1, by omega⟩ hilt

/-- C10: for a non-empty question list, `answer_questions` returns one of
the per-question results, and its score is maximal among them (the results
are sorted ascending by score and the last is returned); on the empty
question list the source indexes the last element of an empty list, made
explicit here as `none`. -/
theorem answer_questions_max_score (qa : String → String → QAResult)
    (questions : List String) (context : String) :
    (questions ≠ [] →
      ∃ r, answer_questions qa questions context = some r ∧
        r ∈ questions.map (fun question => qa question context) ∧
        ∀ question ∈ questions, (qa question context).score ≤ r.score) ∧
    answer_questions qa [] context = none := by
  constructor
  · intro hne
    have hperm : List.Perm
        ((questions.map (fun question => qa question context)).insertionSort
          (fun a b => a.score ≤ b.score))
        (questions.map (fun question => qa question context)) :=
      List.perm_insertionSort _ _
    have hrne : questions.map (fun question => qa question context) ≠ [] := by
      intro hnil
      exact hne (List.map_eq_nil_iff.mp hnil)
    have hsne : ((questions.map (fun question => qa question context)).insertionSort
        (fun a b => a.score ≤ b.score)) ≠ [] := by
      intro hnil
      rw [hnil] at hperm
      exact hrne hperm.symm.eq_nil
    have hsorted : ((questions.map (fun question => qa question context)).insertionSort
        (fun a b => a.score ≤ b.score)).Sorted (fun a b => a.score ≤ b.score) :=
      List.sorted_insertionSort _ _
    refine ⟨((questions.map (fun question => qa question context)).insertionSort
        (fun a b => a.score ≤ b.score)).getLast hsne, ?_, ?_, ?_⟩
    · show (((questions.map (fun question => qa question context)).insertionSort
        (fun a b => a.score ≤ b.score))).getLast? = _
      rw [List.getLast?_eq_getLast _ hsne]
    · exact hperm.subset (List.getLast_mem hsne)
    · intro question hq
      have hmem : qa question context ∈
          ((questions.map (fun question => qa question context)).insertionSort
            (fun a b => a.score ≤ b.score)) :=
        hperm.mem_iff.mpr (List.mem_map_of_mem _ hq)
      exact score_le_getLast hsorted hsne _ hmem
  · rfl

theorem answer_questions_max_score_witness :
    (∃ r, answer_questions (fun question context => ⟨question ++ context, 1, 0, 0⟩)
        ["What is the aim?", "What is the objective?"] "energy" = some r ∧
      r ∈ ["What is the aim?", "What is the objective?"].map
        (fun question =>
          ((fun question context =>
              (⟨question ++ context, 1, 0, 0⟩ : QAResult)) question "energy")) ∧
      ∀ question ∈ ["What is the aim?", "What is the objective?"],
        ((fun question context => (⟨question ++ context, 1, 0, 0⟩ : QAResult))
          question "energy").score ≤ r.score) ∧
    answer_questions (fun question context => ⟨question ++ context, 1, 0, 0⟩)
      [] "energy" = none :=
  ⟨(answer_questions_max_score (fun question context => ⟨question ++ context, 1, 0, 0⟩)
      ["What is the aim?", "What is the objective?"] "energy").1 (by decide),
   (answer_questions_max_score (fun question context => ⟨question ++ context, 1, 0, 0⟩)
      [] "energy").2⟩

end ResearchIndex
